import Mathlib

/-!
Verification of the prolog-language-server core: the AST-to-index
transformer, the in-memory analysis cache with its lookups, and the
document-analysis pipeline.  Every definition below is a shallow
embedding of the corresponding TypeScript function; JavaScript numbers
used as line/character coordinates are modelled as `Int`, possibly
missing (`undefined`) numeric fields as `Option Int`, and JavaScript
exceptions as `Except String`.
-/

namespace Prolog

/-! ## LSP geometry (vscode-languageserver `Position`/`Range`) -/

/-- LSP position: 0-based line and character. -/
structure Position where
  line : Int
  character : Int
deriving Repr, DecidableEq

/-- LSP range, a pair of positions. -/
structure Range where
  start : Position
  «end» : Position
deriving Repr, DecidableEq

/-! ## BLint-side ranges (`parseResult/types.ts`) -/

/-- `SourceRange`: 1-based lines, 0-based characters. -/
structure SourceRange where
  startLine : Int
  startCharacter : Int
  endLine : Int
  endCharacter : Int
deriving Repr, DecidableEq

/-- `rangeUtils.blintRangeToLspRange`: convert the 1-based BLint lines to
0-based LSP lines, characters unchanged. -/
def blintRangeToLspRange (blintRange : SourceRange) : Range :=
  { start := { line := blintRange.startLine - 1, character := blintRange.startCharacter }
    «end» := { line := blintRange.endLine - 1, character := blintRange.endCharacter } }

/-- `realAnalysisCache.isPositionInRange`, translated branch by branch from
the TypeScript: the first guard rejects lines outside the range, the second
rejects characters before the start on the start line, and the third
*accepts* any character at or after the end character on the end line. -/
def isPositionInRange (position : Position) (range : Range) : Bool :=
  if position.line < range.start.line ∨ position.line > range.«end».line then
    false
  else if position.line = range.start.line ∧ position.character < range.start.character then
    false
  else if position.line = range.«end».line ∧ position.character ≥ range.«end».character then
    true
  else
    true

/-! ## ParseResult data model (`parseResult/types.ts`) -/

/-- Diagnostic severity strings. -/
inductive Severity where
  | error
  | warning
  | info
  | hint
deriving Repr, DecidableEq

/-- `DiagnosticData`: 1-based line, 0-based character. -/
structure DiagnosticData where
  line : Int
  character : Int
  message : String
  severity : Severity
deriving Repr, DecidableEq

/-- `EnhancedCallInfo`: one call site. -/
structure EnhancedCallInfo where
  name : String
  arity : Nat
  location : SourceRange
deriving Repr, DecidableEq

/-- `ParserResultPredicate`: one predicate record in a per-file index. -/
structure ParserResultPredicate where
  name : String
  arity : Nat
  definitionRange : SourceRange
  fullRange : SourceRange
  calls : List EnhancedCallInfo
deriving Repr, DecidableEq

/-- `ParseResult`: the per-file index. -/
structure ParseResult where
  filePath : String
  predicates : List ParserResultPredicate
  diagnostics : List DiagnosticData
deriving Repr, DecidableEq

/-! ## JavaScript `Map` as an insertion-ordered association list

`RealAnalysisCache` stores a `Map<string, ParseResult>`; a JavaScript
`Map` iterates in insertion order, `set` on an existing key replaces the
value in place, and `set` on a fresh key appends. -/

/-- `Map.get`: the value stored under the key, if any. -/
def mapGet {α : Type} : List (String × α) → String → Option α
  | [], _ => none
  | e :: rest, key => if e.1 == key then some e.2 else mapGet rest key

/-- `Map.set`: replace the stored value in place when the key is present
(a `Map` holds each key at most once), append otherwise. -/
def mapSet {α : Type} : List (String × α) → String → α → List (String × α)
  | [], key, value => [(key, value)]
  | e :: rest, key, value =>
    if e.1 == key then (key, value) :: rest else e :: mapSet rest key value

/-- `Map.delete`: remove the entry stored under the key, if any. -/
def mapDelete {α : Type} : List (String × α) → String → List (String × α)
  | [], _ => []
  | e :: rest, key =>
    if e.1 == key then mapDelete rest key else e :: mapDelete rest key

/-- The cache's backing store, keyed by file URI. -/
abbrev Cache := List (String × ParseResult)

/-! ## RealAnalysisCache lookups (`utils/realAnalysisCache.ts`) -/

/-- `ReferenceInfo` (interfaces/analysisCache.ts). -/
structure ReferenceInfo where
  uri : String
  call : EnhancedCallInfo
  callingPredicate : ParserResultPredicate
deriving Repr, DecidableEq

/-- `FindElementResult` (interfaces/analysisCache.ts), without the
`undefined` case, which we render as `Option`. -/
inductive FindElementResult where
  | definition (predicate : ParserResultPredicate) (uri : String)
  | call (call : EnhancedCallInfo) (callingPredicate : ParserResultPredicate) (uri : String)
deriving Repr, DecidableEq

namespace RealAnalysisCache

/-- `RealAnalysisCache.get`. -/
def get (cache : Cache) (uri : String) : Option ParseResult :=
  mapGet cache uri

/-- `RealAnalysisCache.set`. -/
def set (cache : Cache) (uri : String) (result : ParseResult) : Cache :=
  mapSet cache uri result

/-- `RealAnalysisCache.delete`. -/
def delete (cache : Cache) (uri : String) : Cache :=
  mapDelete cache uri

/-- Inner loop of `findDefinitionByNameArity`: `Array.find` over one file's
predicate list. -/
def findPredicate (predicates : List ParserResultPredicate) (name : String)
    (arity : Nat) : Option ParserResultPredicate :=
  predicates.find? (fun p => p.name == name && p.arity == arity)

/-- `RealAnalysisCache.findDefinitionByNameArity`: scan the cache entries in
iteration order, returning the first file whose predicate list contains a
`(name, arity)` match, paired with that predicate. -/
def findDefinitionByNameArity (cache : Cache) (name : String) (arity : Nat) :
    Option (String × ParserResultPredicate) :=
  match cache with
  | [] => none
  | (uri, parseResult) :: rest =>
    match findPredicate parseResult.predicates name arity with
    | some foundPredicate => some (uri, foundPredicate)
    | none => findDefinitionByNameArity rest name arity

/-- Innermost loop of `findReferences`: push one result per matching call of
one predicate. -/
def referencesInCalls (uri : String) (predicate : ParserResultPredicate)
    (targetName : String) (targetArity : Nat) :
    List EnhancedCallInfo → List ReferenceInfo
  | [] => []
  | call :: rest =>
    if call.name == targetName && call.arity == targetArity then
      { uri := uri, call := call, callingPredicate := predicate } ::
        referencesInCalls uri predicate targetName targetArity rest
    else
      referencesInCalls uri predicate targetName targetArity rest

/-- Middle loop of `findReferences`: over one file's predicates. -/
def referencesInPredicates (uri : String) (targetName : String) (targetArity : Nat) :
    List ParserResultPredicate → List ReferenceInfo
  | [] => []
  | predicate :: rest =>
    referencesInCalls uri predicate targetName targetArity predicate.calls ++
      referencesInPredicates uri targetName targetArity rest

/-- `RealAnalysisCache.findReferences`: nested loops over cache entries,
their predicates, and each predicate's calls, pushing one result per call
matching `(targetName, targetArity)`. -/
def findReferences (cache : Cache) (targetName : String) (targetArity : Nat) :
    List ReferenceInfo :=
  match cache with
  | [] => []
  | (uri, parseResult) :: rest =>
    referencesInPredicates uri targetName targetArity parseResult.predicates ++
      findReferences rest targetName targetArity

/-- Inner loop of `findElementAtPosition` over one predicate's calls. -/
def findCallHit (uri : String) (predicate : ParserResultPredicate) (position : Position) :
    List EnhancedCallInfo → Option FindElementResult
  | [] => none
  | call :: rest =>
    if isPositionInRange position (blintRangeToLspRange call.location) then
      some (.call call predicate uri)
    else
      findCallHit uri predicate position rest

/-- Loop of `findElementAtPosition` over a file's predicates: definition
head first, then that predicate's calls in order. -/
def findElementInPredicates (uri : String) (position : Position) :
    List ParserResultPredicate → Option FindElementResult
  | [] => none
  | predicate :: rest =>
    if isPositionInRange position (blintRangeToLspRange predicate.definitionRange) then
      some (.definition predicate uri)
    else
      match findCallHit uri predicate position predicate.calls with
      | some hit => some hit
      | none => findElementInPredicates uri position rest

/-- `RealAnalysisCache.findElementAtPosition`. -/
def findElementAtPosition (cache : Cache) (uri : String) (position : Position) :
    Option FindElementResult :=
  match get cache uri with
  | none => none
  | some parseResult => findElementInPredicates uri position parseResult.predicates

end RealAnalysisCache

/-! ## BLint AST (`ast/types.ts`)

Fields that the processor reads through JavaScript truthiness checks or
optional chaining (`node.line && node.column`, `topLevel.line || ...`,
`topLevel.fullRange`) are modelled as `Option Int` / `Option AstRange`,
with `none` standing for `undefined`. -/

/-- `AstPosition`: 1-based line and column. -/
structure AstPosition where
  line : Int
  column : Int
deriving Repr, DecidableEq

/-- `AstRange`. -/
structure AstRange where
  start : AstPosition
  «end» : AstPosition
deriving Repr, DecidableEq

/-- `AstTerm`: the term-level union.  `binop` is the TypeScript `AstInfix`
node (renamed here); its extra pair of coordinates and string are the
embedded `AstOperator` node `op`. -/
inductive AstTerm where
  | atom (line column : Option Int) (text : String)
  | var (line column : Option Int) (name : String)
  | number (line column : Option Int) (value : Int)
  | operator (line column : Option Int) (op : String)
  | functor (line column : Option Int) (name : String) (arity : Nat) (params : List AstTerm)
  | binop (line column : Option Int) (opLine opColumn : Option Int) (op : String)
      (left right : AstTerm)
  | list (line column : Option Int) (items : List AstTerm)
  | paren (line column : Option Int) (content : List AstTerm)
  | cut (line column : Option Int)

/-- `AstTopLevel`: tags of top-level items.  `unknownKind` stands for any
node whose `type` string matches none of the guards (the trailing `else`
in the processor).  Only the fields the processor reads are modelled. -/
inductive AstTopLevel where
  | directive (line : Option Int)
  | fact (line : Option Int) (fullRange : Option AstRange) (head : Option AstTerm)
  | rule (line : Option Int) (fullRange : Option AstRange) (head : Option AstTerm)
      (body : List AstTerm)
  | parseError (line : Int) (column : Int) (kind : String)
  | unknownKind

/-- `PrologAst`: the root object. -/
structure PrologAst where
  file : String
  predicates : List AstTopLevel

/-! ## JavaScript numeric truthiness helpers -/

/-- Truthiness of a possibly-missing JavaScript number: `undefined` and `0`
are falsy. -/
def jsTruthy : Option Int → Bool
  | Option.none => false
  | Option.some v => v != 0

/-- JavaScript `a || b` for a possibly-missing number `a`: yields `a` when
truthy, `b` otherwise. -/
def jsOr : Option Int → Int → Int
  | Option.none, b => b
  | Option.some v, b => if v != 0 then v else b

/-! ## AST processor (`ast/processor.ts`) -/

/-- `processor.getHeadNameArity`: a functor head yields its declared name
and arity, an atom head yields `(text, 0)`, anything else is unsupported. -/
def getHeadNameArity : AstTerm → Option (String × Nat)
  | .functor _ _ name arity _ => some (name, arity)
  | .atom _ _ text => some (text, 0)
  | _ => none

/-- `processor.getNodeText`: the rendered text used to estimate a head or
call identifier's width. -/
def getNodeText : AstTerm → String
  | .atom _ _ text => text
  | .var _ _ name => name
  | .number _ _ value => toString value
  | .operator _ _ op => op
  | .functor _ _ name _ _ => name
  | .binop _ _ _ _ op _ _ => op
  | .list _ _ _ => "[]"
  | .paren _ _ _ => "()"
  | .cut _ _ => "!"

/-- Line field of a term node. -/
def nodeLine : AstTerm → Option Int
  | .atom line _ _ => line
  | .var line _ _ => line
  | .number line _ _ => line
  | .operator line _ _ => line
  | .functor line _ _ _ _ => line
  | .binop line _ _ _ _ _ _ => line
  | .list line _ _ => line
  | .paren line _ _ => line
  | .cut line _ => line

/-- Column field of a term node. -/
def nodeColumn : AstTerm → Option Int
  | .atom _ column _ => column
  | .var _ column _ => column
  | .number _ column _ => column
  | .operator _ column _ => column
  | .functor _ column _ _ _ => column
  | .binop _ column _ _ _ _ _ => column
  | .list _ column _ => column
  | .paren _ column _ => column
  | .cut _ column => column

/-- `processor.getSourceRangeFromNode`: when the node carries truthy line
and column info, a single-line range starting at the 0-based column and as
wide as the rendered text; otherwise the 1-by-1 fallback range (the source
also logs a warning, which does not affect the result). -/
def getSourceRangeFromNode (node : AstTerm) : SourceRange :=
  if jsTruthy (nodeLine node) && jsTruthy (nodeColumn node) then
    { startLine := (nodeLine node).getD 0
      startCharacter := (nodeColumn node).getD 0 - 1
      endLine := (nodeLine node).getD 0
      endCharacter := (nodeColumn node).getD 0 - 1 + ((getNodeText node).length : Int) }
  else
    { startLine := 1, startCharacter := 0, endLine := 1, endCharacter := 1 }

/-- `processor.getSourceRangeFromAstRange`. -/
def getSourceRangeFromAstRange (range : AstRange) : SourceRange :=
  { startLine := range.start.line
    startCharacter := range.start.column - 1
    endLine := range.«end».line
    endCharacter := range.«end».column - 1 }

/- `processor.findCallsInBody`, in accumulator-passing style: the source
pushes onto a shared `calls` array while walking the term list; the mutual
helper `findCallsInTerm` is the loop body for one term. -/
mutual

/-- Loop body of `findCallsInBody` for a single term. -/
def findCallsInTerm (term : AstTerm) (calls : List EnhancedCallInfo) :
    List EnhancedCallInfo :=
  match term with
  | .functor line column name arity params =>
    findCallsInBody params
      (calls ++ [{ name := name, arity := arity,
                   location := getSourceRangeFromNode (.functor line column name arity params) }])
  | .binop _ _ _ _ _ left right =>
    findCallsInTerm right (findCallsInTerm left calls)
  | .list _ _ items => findCallsInBody items calls
  | .paren _ _ content => findCallsInBody content calls
  | _ => calls

def findCallsInBody (body : List AstTerm) (calls : List EnhancedCallInfo) :
    List EnhancedCallInfo :=
  match body with
  | [] => calls
  | term :: rest => findCallsInBody rest (findCallsInTerm term calls)

end

/-- State threaded through `transformAstToParseResult`: the
`predicatesMap` (a JavaScript `Map` keyed by `"name/arity"`) and the
collected diagnostics. -/
structure TransformState where
  predicatesMap : List (String × ParserResultPredicate)
  diagnostics : List DiagnosticData
deriving Repr, DecidableEq

/-- The `"name/arity"` map key. -/
def predicateKey (name : String) (arity : Nat) : String :=
  name ++ "/" ++ toString arity

/-- One rule/fact clause of `transformAstToParseResult`, starting after the
head/body destructuring.  Reading `topLevel.fullRange` when it is
`undefined` throws in JavaScript (the property access `.start` fails),
modelled by `Except.error`; the access only happens when the clause
creates a new map entry. -/
def processClause (st : TransformState) (line : Option Int)
    (fullRange : Option AstRange) (head : Option AstTerm) (body : List AstTerm) :
    Except String TransformState :=
  match head with
  | none => .ok st
  | some headTerm =>
    match getHeadNameArity headTerm with
    | none => .ok st
    | some (name, arity) =>
      let key := predicateKey name arity
      let definitionRange := getSourceRangeFromNode headTerm
      let clauseCalls := findCallsInBody body []
      match mapGet st.predicatesMap key with
      | none =>
        match fullRange with
        | none => .error "TypeError: Cannot read properties of undefined (reading start)"
        | some fr =>
          let predicateEntry : ParserResultPredicate :=
            { name := name, arity := arity
              fullRange := getSourceRangeFromAstRange fr
              definitionRange := definitionRange
              calls := clauseCalls }
          .ok { st with predicatesMap := mapSet st.predicatesMap key predicateEntry }
      | some predicateEntry =>
        let merged : ParserResultPredicate :=
          { predicateEntry with
            calls := predicateEntry.calls ++ clauseCalls
            fullRange := { predicateEntry.fullRange with
              startLine := min predicateEntry.fullRange.startLine
                (jsOr line definitionRange.startLine)
              endLine := max predicateEntry.fullRange.endLine
                (jsOr line definitionRange.endLine) } }
        .ok { st with predicatesMap := mapSet st.predicatesMap key merged }

/-- One iteration of the top-level loop of `transformAstToParseResult`:
directives and unknown kinds are skipped, a parse error pushes one `error`
diagnostic, rules and facts go through `processClause`. -/
def processTopLevel (st : TransformState) (topLevel : AstTopLevel) :
    Except String TransformState :=
  match topLevel with
  | .rule line fullRange head body => processClause st line fullRange head body
  | .fact line fullRange head => processClause st line fullRange head []
  | .directive _ => .ok st
  | .parseError line column kind =>
    .ok { st with diagnostics := st.diagnostics ++
            [{ line := line, character := column, message := kind ++ " error",
               severity := .error }] }
  | .unknownKind => .ok st

/-- The top-level loop, threading the state left to right and aborting on a
thrown exception. -/
def processTopLevels (st : TransformState) : List AstTopLevel →
    Except String TransformState
  | [] => .ok st
  | topLevel :: rest =>
    match processTopLevel st topLevel with
    | .error e => .error e
    | .ok st' => processTopLevels st' rest

/-- `processor.transformAstToParseResult`: group clauses by predicate
name/arity; the result lists the map's values in insertion order. -/
def transformAstToParseResult (ast : PrologAst) : Except String ParseResult :=
  match processTopLevels { predicatesMap := [], diagnostics := [] } ast.predicates with
  | .error e => .error e
  | .ok st =>
    .ok { filePath := ast.file
          predicates := st.predicatesMap.map (fun e => e.2)
          diagnostics := st.diagnostics }

/-! ## Document analysis pipeline (`documentManager.ts`)

The server runs on the single-threaded event loop: `triggerAnalysis` and
the close handler execute atomically, and the asynchronous body of
`performAnalysis` takes effect when the underlying promise settles.  The
manager is therefore modelled as a state machine whose events are
`triggerAnalysis`, promise settlement, document close, and
`analyzeDocument`.  The external analyzer (`parseProlog`) is a
collaborator outside this core; its outcome — a `ParseResult`, or an
exception escaping into `performAnalysis`'s catch block — is an input to
the settlement event.  `invocations` is a ghost log of the analysis runs
started, used to count external-analyzer invocations. -/

/-- LSP diagnostic severities. -/
inductive LspSeverity where
  | error
  | warning
  | information
  | hint
deriving Repr, DecidableEq

/-- An LSP diagnostic as published via `connection.sendDiagnostics`. -/
structure LspDiagnostic where
  range : Range
  message : String
  severity : LspSeverity
  source : String
deriving Repr, DecidableEq

/-- Severity translation used by `convertToLspDiagnostics` (the switch
statement maps each BLint severity string to its LSP counterpart,
defaulting to Information). -/
def severityToLsp : Severity → LspSeverity
  | .error => .error
  | .warning => .warning
  | .info => .information
  | .hint => .hint

/-- `prologParser.convertToLspDiagnostics`: 1-based BLint lines become
0-based LSP lines, clamped at 0; the range is the single position the
diagnostic names. -/
def convertToLspDiagnostics (diagData : List DiagnosticData) : List LspDiagnostic :=
  diagData.map (fun d =>
    let line := max 0 (d.line - 1)
    { range := { start := { line := line, character := d.character }
                 «end» := { line := line, character := d.character } }
      message := d.message
      severity := severityToLsp d.severity
      source := "BLint" })

/-- Outcome of one asynchronous analysis attempt for a file: either the
`ParseResult` produced by `parseProlog`, or an internal error caught by
`performAnalysis`'s catch block. -/
inductive AnalysisOutcome where
  | success (result : ParseResult)
  | internalError (message : String)
deriving Repr, DecidableEq

/-- `DocumentManager` state: the analysis cache, the `analysisQueue` map's
key set, the URIs of documents managed by `TextDocuments`, the last
diagnostics published per URI, and the ghost log of started analyses. -/
structure ServerState where
  cache : Cache
  analysisQueue : List String
  documents : List String
  published : List (String × List LspDiagnostic)
  invocations : List String
deriving Repr, DecidableEq

/-- The synthetic diagnostic published by `performAnalysis` on an internal
error: `Diagnostic.create(Range.create(0,0,0,0), ..., Error, undefined,
"Prolog LSP")`. -/
def internalErrorDiagnostic (message : String) : LspDiagnostic :=
  { range := { start := { line := 0, character := 0 }
               «end» := { line := 0, character := 0 } }
    message := "Internal analysis error: " ++ message
    severity := .error
    source := "Prolog LSP" }

/-- `DocumentManager.performAnalysis`, at the moment its promise settles:
on success the result is cached and its diagnostics published; on an
internal error the cache entry is deleted, one synthetic error diagnostic
at (0,0) is published, and `undefined` is returned instead of rethrowing. -/
def performAnalysis (st : ServerState) (uri : String) (outcome : AnalysisOutcome) :
    ServerState × Option ParseResult :=
  match outcome with
  | .success result =>
    ({ st with cache := RealAnalysisCache.set st.cache uri result
               published := mapSet st.published uri (convertToLspDiagnostics result.diagnostics) },
     some result)
  | .internalError message =>
    ({ st with cache := RealAnalysisCache.delete st.cache uri
               published := mapSet st.published uri [internalErrorDiagnostic message] },
     none)

/-- `DocumentManager.triggerAnalysis`: when an analysis is already queued
or running for the URI, return without queuing; otherwise start
`performAnalysis` and record the promise in `analysisQueue`. -/
def triggerAnalysis (st : ServerState) (uri : String) : ServerState :=
  if st.analysisQueue.contains uri then
    st
  else
    { st with analysisQueue := st.analysisQueue ++ [uri]
              invocations := st.invocations ++ [uri] }

/-- Settlement of an in-flight analysis: the effects of
`performAnalysis`'s body, then the `finally` handler removing the URI from
`analysisQueue`. -/
def analysisSettled (st : ServerState) (uri : String) (outcome : AnalysisOutcome) :
    ServerState × Option ParseResult :=
  let (st', ret) := performAnalysis st uri outcome
  ({ st' with analysisQueue := st'.analysisQueue.filter (fun u => u != uri) }, ret)

/-- The `onDidClose` handler: delete the file's cache entry and publish an
empty diagnostic list for it. -/
def closeDocument (st : ServerState) (uri : String) : ServerState :=
  { st with cache := RealAnalysisCache.delete st.cache uri
            published := mapSet st.published uri [] }

/-- Reply of `analyzeDocument`: an already-resolved value (the cached
entry, or `undefined` when the document is not managed), or the shared
in-flight promise. -/
inductive AnalyzeReply where
  | resolved (result : Option ParseResult)
  | inFlight
deriving Repr, DecidableEq

/-- `DocumentManager.analyzeDocument`: cached entry first, then the
in-flight promise, then a fresh analysis when the document is managed,
else `undefined`. -/
def analyzeDocument (st : ServerState) (uri : String) : ServerState × AnalyzeReply :=
  match RealAnalysisCache.get st.cache uri with
  | some analysis => (st, .resolved (some analysis))
  | none =>
    if st.analysisQueue.contains uri then
      (st, .inFlight)
    else if st.documents.contains uri then
      ({ st with analysisQueue := st.analysisQueue ++ [uri]
                 invocations := st.invocations ++ [uri] }, .inFlight)
    else
      (st, .resolved none)

/-! ## Specification-side definitions

The following definitions transcribe the *specification's wording* of the
cache lookups, the position-containment rule, and the body traversal.
They are compared with the source-derived definitions above by the
refinement theorems below. -/

/-- The containment test as the specification words it: line within
[start.line, end.line]; on the start line, character at or after the start
character; on the end line, character at or before the end character
inclusive. -/
def claimContainment (position : Position) (range : Range) : Prop :=
  (range.start.line ≤ position.line ∧ position.line ≤ range.«end».line) ∧
  (position.line = range.start.line → range.start.character ≤ position.character) ∧
  (position.line = range.«end».line → position.character ≤ range.«end».character)

instance (position : Position) (range : Range) :
    Decidable (claimContainment position range) := by
  unfold claimContainment
  infer_instance

/-- The specification's description of `findReferences`: one result per
CallSite matching the name/arity across all cached files, in cache
iteration order, each carrying the file id, the call unchanged, and the
predicate that contains the call. -/
def specFindReferences (cache : Cache) (name : String) (arity : Nat) :
    List ReferenceInfo :=
  cache.flatMap (fun entry =>
    entry.2.predicates.flatMap (fun predicate =>
      (predicate.calls.filter (fun c => c.name == name && c.arity == arity)).map
        (fun c => { uri := entry.1, call := c, callingPredicate := predicate })))

/-- The specification's description of `findDefinitionByNameArity`: the
first `(name, arity)` match in cache iteration order, or absent. -/
def specFirstDefinition (cache : Cache) (name : String) (arity : Nat) :
    Option (String × ParserResultPredicate) :=
  (cache.flatMap (fun entry =>
    (entry.2.predicates.filter (fun p => p.name == name && p.arity == arity)).map
      (fun p => (entry.1, p)))).head?

/- The specification's description of the body traversal: pre-order,
depth-first; every functor application contributes one CallSite (before
the calls found inside its arguments) and is recursed into through its
arguments; infix operands are visited left then right; list items and
parenthesized contents are visited in order; atoms, variables, numbers,
operators and cuts contribute nothing and are not recursed into. -/
mutual

/-- Calls contributed by one term, per the specification's wording. -/
def specCallsTerm : AstTerm → List EnhancedCallInfo
  | .functor line column name arity params =>
    { name := name, arity := arity
      location := getSourceRangeFromNode (.functor line column name arity params) } ::
      specCallsList params
  | .binop _ _ _ _ _ left right => specCallsTerm left ++ specCallsTerm right
  | .list _ _ items => specCallsList items
  | .paren _ _ content => specCallsList content
  | .atom _ _ _ => []
  | .var _ _ _ => []
  | .number _ _ _ => []
  | .operator _ _ _ => []
  | .cut _ _ => []

/-- Calls contributed by a term sequence, in order. -/
def specCallsList : List AstTerm → List EnhancedCallInfo
  | [] => []
  | term :: rest => specCallsTerm term ++ specCallsList rest

end

/-! ### Per-clause view of the transformer, for the merge law -/

/-- The data of one rule/fact clause as the transformer consumes it: its
key fields, the head-derived definition range, and the clause's calls. -/
structure ClauseData where
  name : String
  arity : Nat
  line : Option Int
  fullRange : Option AstRange
  definitionRange : SourceRange
  calls : List EnhancedCallInfo
deriving Repr, DecidableEq

/-- The clause data of a top-level item, when the item is a rule or fact
whose head yields a name/arity (exactly the items `processClause` indexes). -/
def clauseData : AstTopLevel → Option ClauseData
  | .fact line fullRange head =>
    match head with
    | none => none
    | some h =>
      match getHeadNameArity h with
      | none => none
      | some (name, arity) =>
        some { name := name, arity := arity, line := line, fullRange := fullRange
               definitionRange := getSourceRangeFromNode h
               calls := findCallsInBody [] [] }
  | .rule line fullRange head body =>
    match head with
    | none => none
    | some h =>
      match getHeadNameArity h with
      | none => none
      | some (name, arity) =>
        some { name := name, arity := arity, line := line, fullRange := fullRange
               definitionRange := getSourceRangeFromNode h
               calls := findCallsInBody body [] }
  | _ => none

/-- The clauses of an item list contributing to one map key, in source
order. -/
def contribsFor (key : String) (items : List AstTopLevel) : List ClauseData :=
  items.filterMap (fun item =>
    match clauseData item with
    | some c => if predicateKey c.name c.arity == key then some c else none
    | none => none)

/-- The record created for a key's first clause. -/
def newRecord (c : ClauseData) (fr : AstRange) : ParserResultPredicate :=
  { name := c.name, arity := c.arity
    fullRange := getSourceRangeFromAstRange fr
    definitionRange := c.definitionRange
    calls := c.calls }

/-- The merge of one further clause into an existing record, as
`processClause` performs it. -/
def mergeRecord (entry : ParserResultPredicate) (c : ClauseData) :
    ParserResultPredicate :=
  { entry with
    calls := entry.calls ++ c.calls
    fullRange := { entry.fullRange with
      startLine := min entry.fullRange.startLine (jsOr c.line c.definitionRange.startLine)
      endLine := max entry.fullRange.endLine (jsOr c.line c.definitionRange.endLine) } }

/-- One clause's effect on a key's (possibly absent) record. -/
def mergeClause : Option ParserResultPredicate → ClauseData →
    Except String ParserResultPredicate
  | none, c =>
    match c.fullRange with
    | none => .error "TypeError: Cannot read properties of undefined (reading start)"
    | some fr => .ok (newRecord c fr)
  | some entry, c => .ok (mergeRecord entry c)

/-- A clause list's cumulative effect on a key's record. -/
def mergeClauses : Option ParserResultPredicate → List ClauseData →
    Except String (Option ParserResultPredicate)
  | entry, [] => .ok entry
  | entry, c :: rest =>
    match mergeClause entry c with
    | .error e => .error e
    | .ok r => mergeClauses (some r) rest

/-- Well-keyedness of the predicates map: every entry is stored under the
key derived from its record's name and arity, and keys are unique. -/
def mapWellKeyed (m : List (String × ParserResultPredicate)) : Prop :=
  (∀ e ∈ m, e.1 = predicateKey e.2.name e.2.arity) ∧
  (m.map (fun e => e.1)).Nodup

/-- A top-level item carries full-range data whenever it is a rule or
fact (the transformer reads `fullRange` only for those). -/
def clauseHasFullRange : AstTopLevel → Bool
  | .fact _ fullRange _ => fullRange.isSome
  | .rule _ fullRange _ _ => fullRange.isSome
  | _ => true

/-- The state the transformer's top-level loop starts from. -/
def initialTransformState : TransformState :=
  { predicatesMap := [], diagnostics := [] }

/-- Closed form of folding `mergeRecord` over further clauses: the name,
arity and definition range stay those of the starting record, the calls
are concatenated in clause order, the full range's characters stay fixed,
and its lines fold through min/max against each later clause's item line
(head-range fallback). -/
def mergedRecord (r : ParserResultPredicate) (rest : List ClauseData) :
    ParserResultPredicate :=
  { name := r.name
    arity := r.arity
    definitionRange := r.definitionRange
    calls := r.calls ++ (rest.map (fun c => c.calls)).flatten
    fullRange :=
      { startLine := rest.foldl
          (fun a c => min a (jsOr c.line c.definitionRange.startLine))
          r.fullRange.startLine
        startCharacter := r.fullRange.startCharacter
        endLine := rest.foldl
          (fun a c => max a (jsOr c.line c.definitionRange.endLine))
          r.fullRange.endLine
        endCharacter := r.fullRange.endCharacter } }

/-- The clause data of `mergeClauseOne`. -/
def mergeClauseOneData : ClauseData :=
  { name := "p", arity := 1, line := some 1
    fullRange := some { start := { line := 1, column := 1 }
                        «end» := { line := 1, column := 9 } }
    definitionRange := { startLine := 1, startCharacter := 0, endLine := 1, endCharacter := 1 }
    calls := [{ name := "q", arity := 0
                location := { startLine := 1, startCharacter := 5,
                              endLine := 1, endCharacter := 6 } }] }

/-- The clause data of `mergeClauseTwo`. -/
def mergeClauseTwoData : ClauseData :=
  { name := "p", arity := 1, line := some 3
    fullRange := some { start := { line := 3, column := 1 }
                        «end» := { line := 5, column := 11 } }
    definitionRange := { startLine := 3, startCharacter := 0, endLine := 3, endCharacter := 1 }
    calls := [{ name := "r", arity := 0
                location := { startLine := 4, startCharacter := 5,
                              endLine := 4, endCharacter := 6 } }] }

/-! ### Concrete inputs used by counterexamples and witnesses -/

/-- A predicate record whose definition head spans characters 0 to 5
(exclusive) of source line 1. -/
def boundaryPredicate : ParserResultPredicate :=
  { name := "p", arity := 0
    definitionRange := { startLine := 1, startCharacter := 0, endLine := 1, endCharacter := 5 }
    fullRange := { startLine := 1, startCharacter := 0, endLine := 1, endCharacter := 6 }
    calls := [] }

/-- A one-file cache holding only `boundaryPredicate`. -/
def boundaryCache : Cache :=
  [("file:a.pl", { filePath := "a.pl", predicates := [boundaryPredicate], diagnostics := [] })]

/-- First clause of `p/1`: `p(X) :- q.` on line 1, full range (1,1)-(1,9). -/
def mergeClauseOne : AstTopLevel :=
  .rule (some 1)
    (some { start := { line := 1, column := 1 }, «end» := { line := 1, column := 9 } })
    (some (.functor (some 1) (some 1) "p" 1 [.var (some 1) (some 3) "X"]))
    [.functor (some 1) (some 6) "q" 0 []]

/-- Second clause of `p/1`, spanning lines 3 through 5: its full range is
(3,1)-(5,11) and its item line is 3. -/
def mergeClauseTwo : AstTopLevel :=
  .rule (some 3)
    (some { start := { line := 3, column := 1 }, «end» := { line := 5, column := 11 } })
    (some (.functor (some 3) (some 1) "p" 1 [.var (some 3) (some 3) "Y"]))
    [.functor (some 4) (some 6) "r" 0 []]

/-- A file with two clauses for `p/1`, the second multi-line. -/
def mergeCexAst : PrologAst :=
  { file := "f.pl", predicates := [mergeClauseOne, mergeClauseTwo] }

/-- The record the transformer actually produces for `mergeCexAst`: its
`fullRange` ends on line 3 (the second clause's *start* line), not on
line 5 where the second clause ends. -/
def mergeCexRecord : ParserResultPredicate :=
  { name := "p", arity := 1
    definitionRange := { startLine := 1, startCharacter := 0, endLine := 1, endCharacter := 1 }
    fullRange := { startLine := 1, startCharacter := 0, endLine := 3, endCharacter := 8 }
    calls := [{ name := "q", arity := 0
                location := { startLine := 1, startCharacter := 5, endLine := 1, endCharacter := 6 } },
              { name := "r", arity := 0
                location := { startLine := 4, startCharacter := 5, endLine := 4, endCharacter := 6 } }] }

/-- The full transformer output for `mergeCexAst`. -/
def mergeCexResult : ParseResult :=
  { filePath := "f.pl", predicates := [mergeCexRecord], diagnostics := [] }

/-- A rule with a well-formed head but no full-range data. -/
def missingFullRangeAst : PrologAst :=
  { file := "g.pl"
    predicates := [.rule (some 1) none (some (.atom (some 1) (some 1) "a")) []] }

/-- A small well-formed syntax tree: one fact, one parse error, one
directive, one unknown item. -/
def totalWitnessAst : PrologAst :=
  { file := "w.pl"
    predicates := [
      .fact (some 1)
        (some { start := { line := 1, column := 1 }, «end» := { line := 1, column := 6 } })
        (some (.atom (some 1) (some 1) "fact")),
      .parseError 2 1 "syntax",
      .directive (some 3),
      .unknownKind] }

/-- An idle server state with one closed-over cache entry. -/
def witnessServerState : ServerState :=
  { cache := boundaryCache
    analysisQueue := []
    documents := ["file:a.pl"]
    published := []
    invocations := [] }

/-! ## Association-list map lemmas -/

theorem mapGet_mapSet_self {α : Type} (m : List (String × α)) (key : String) (value : α) :
    mapGet (mapSet m key value) key = some value := by
  induction m with
  | nil => simp [mapGet, mapSet]
  | cons e rest ih =>
    by_cases h : e.1 == key
    · simp [mapSet, h, mapGet]
    · simp [mapSet, h, mapGet, ih]

theorem mapGet_mapSet_other {α : Type} (m : List (String × α)) (key key' : String)
    (value : α) (h : key' ≠ key) :
    mapGet (mapSet m key value) key' = mapGet m key' := by
  induction m with
  | nil =>
    simp [mapGet, mapSet]
    intro hk
    exact absurd hk.symm h
  | cons e rest ih =>
    by_cases he : e.1 == key
    · have he' : e.1 = key := by simpa using he
      simp [mapSet, he, mapGet, he', Ne.symm h]
    · simp [mapSet, he, mapGet, ih]

theorem mapGet_mapDelete_self {α : Type} (m : List (String × α)) (key : String) :
    mapGet (mapDelete m key) key = none := by
  induction m with
  | nil => rfl
  | cons e rest ih =>
    by_cases he : (e.1 == key) = true
    · simp [mapDelete, he, ih]
    · simp only [Bool.not_eq_true] at he
      simp [mapDelete, he, mapGet, ih]

theorem mapGet_mapDelete_other {α : Type} (m : List (String × α)) (key key' : String)
    (h : key' ≠ key) :
    mapGet (mapDelete m key) key' = mapGet m key' := by
  induction m with
  | nil => rfl
  | cons e rest ih =>
    by_cases he : (e.1 == key) = true
    · have he' : e.1 = key := by simpa using he
      have hne : (e.1 == key') = false := by
        rw [he']
        exact beq_eq_false_iff_ne.mpr (Ne.symm h)
      simp [mapDelete, he, mapGet, hne, ih]
    · simp only [Bool.not_eq_true] at he
      by_cases hk : (e.1 == key') = true
      · simp [mapDelete, he, mapGet, hk]
      · simp only [Bool.not_eq_true] at hk
        simp [mapDelete, he, mapGet, hk, ih]

theorem mapGet_eq_none_iff {α : Type} (m : List (String × α)) (key : String) :
    mapGet m key = none ↔ key ∉ m.map (fun e => e.1) := by
  induction m with
  | nil => simp [mapGet]
  | cons e rest ih =>
    by_cases he : (e.1 == key) = true
    · have he' : e.1 = key := by simpa using he
      constructor
      · intro h
        simp [mapGet, he] at h
      · intro h
        rw [List.map_cons, he'] at h
        exact absurd (List.mem_cons_self _ _) h
    · rw [Bool.not_eq_true] at he
      have he' : e.1 ≠ key := beq_eq_false_iff_ne.mp he
      rw [List.map_cons]
      constructor
      · intro h hmem
        rcases List.mem_cons.mp hmem with h1 | h2
        · exact he' h1.symm
        · have hrest : mapGet rest key = none := by simpa [mapGet, he] using h
          exact (ih.mp hrest) h2
      · intro h
        have hrest : key ∉ rest.map (fun e => e.1) :=
          fun hm => h (List.mem_cons_of_mem _ hm)
        simpa [mapGet, he] using ih.mpr hrest

theorem mapGet_some_mem {α : Type} (m : List (String × α)) (key : String) (v : α)
    (h : mapGet m key = some v) : (key, v) ∈ m := by
  induction m with
  | nil => simp [mapGet] at h
  | cons e rest ih =>
    by_cases he : (e.1 == key) = true
    · have he' : e.1 = key := by simpa using he
      simp [mapGet, he] at h
      subst he'
      subst h
      exact List.mem_cons_self e rest
    · simp [mapGet, he] at h
      exact List.mem_cons_of_mem _ (ih h)

/-! ## Claim C6: findDefinitionByNameArity -/

theorem findPredicate_eq (predicates : List ParserResultPredicate) (name : String)
    (arity : Nat) :
    RealAnalysisCache.findPredicate predicates name arity =
      (predicates.filter (fun p => p.name == name && p.arity == arity)).head? := by
  induction predicates with
  | nil => rfl
  | cons p rest ih =>
    by_cases h : (p.name == name && p.arity == arity) = true
    · simp [RealAnalysisCache.findPredicate, List.find?_cons, h, List.filter_cons]
    · simp only [Bool.not_eq_true] at h
      simp [RealAnalysisCache.findPredicate, List.find?_cons, h, List.filter_cons] at ih ⊢

/-- Claim C6: `findDefinitionByNameArity` returns the first `(name, arity)`
match in cache iteration order, paired with its file id, and returns
absent exactly when no cached index's predicate list contains a record
with that name and arity. -/
theorem findDefinitionByNameArity_spec :
    ∀ (cache : Cache) (name : String) (arity : Nat),
      RealAnalysisCache.findDefinitionByNameArity cache name arity =
        specFirstDefinition cache name arity ∧
      (RealAnalysisCache.findDefinitionByNameArity cache name arity = none ↔
        ∀ entry ∈ cache, ∀ p ∈ entry.2.predicates, ¬(p.name = name ∧ p.arity = arity)) := by
  have main : ∀ (cache : Cache) (name : String) (arity : Nat),
      RealAnalysisCache.findDefinitionByNameArity cache name arity =
        specFirstDefinition cache name arity := by
    intro cache name arity
    induction cache with
    | nil => rfl
    | cons entry rest ih =>
      obtain ⟨uri, parseResult⟩ := entry
      rw [RealAnalysisCache.findDefinitionByNameArity, findPredicate_eq]
      cases hf : (parseResult.predicates.filter
          (fun p => p.name == name && p.arity == arity)).head? with
      | none =>
        have hnil : parseResult.predicates.filter
            (fun p => p.name == name && p.arity == arity) = [] :=
          List.head?_eq_none_iff.mp hf
        simp [specFirstDefinition, hnil, ih, specFirstDefinition]
      | some p =>
        obtain ⟨tl, htl⟩ : ∃ tl, parseResult.predicates.filter
            (fun p => p.name == name && p.arity == arity) = p :: tl := by
          cases hl : parseResult.predicates.filter
              (fun p => p.name == name && p.arity == arity) with
          | nil => rw [hl] at hf; simp at hf
          | cons q tl =>
            rw [hl] at hf
            simp at hf
            exact ⟨tl, by rw [hf]⟩
        simp [specFirstDefinition, htl]
  intro cache name arity
  refine ⟨main cache name arity, ?_⟩
  rw [main cache name arity]
  unfold specFirstDefinition
  rw [List.head?_eq_none_iff]
  constructor
  · intro hnil entry hmem p hp hcond
    have : (entry.1, p) ∈ cache.flatMap (fun entry =>
        (entry.2.predicates.filter (fun p => p.name == name && p.arity == arity)).map
          (fun p => (entry.1, p))) := by
      rw [List.mem_flatMap]
      exact ⟨entry, hmem, List.mem_map_of_mem _ (List.mem_filter.mpr
        ⟨hp, by simp [hcond.1, hcond.2]⟩)⟩
    rw [hnil] at this
    simp at this
  · intro hall
    rw [List.eq_nil_iff_forall_not_mem]
    intro pair hpair
    rw [List.mem_flatMap] at hpair
    obtain ⟨entry, hmem, hmap⟩ := hpair
    rw [List.mem_map] at hmap
    obtain ⟨p, hp, rfl⟩ := hmap
    rw [List.mem_filter] at hp
    have := hall entry hmem p hp.1
    apply this
    have hc := hp.2
    simp at hc
    exact ⟨hc.1, hc.2⟩

/-- Claim C6 witness: the lookup agrees with the spec-side first-match
description on a concrete cache, and misses on an empty name. -/
theorem findDefinitionByNameArity_spec_witness :
    RealAnalysisCache.findDefinitionByNameArity boundaryCache "p" 0 =
      specFirstDefinition boundaryCache "p" 0 ∧
    (RealAnalysisCache.findDefinitionByNameArity boundaryCache "q" 1 = none ↔
      ∀ entry ∈ boundaryCache, ∀ p ∈ entry.2.predicates, ¬(p.name = "q" ∧ p.arity = 1)) :=
  ⟨(findDefinitionByNameArity_spec boundaryCache "p" 0).1,
   (findDefinitionByNameArity_spec boundaryCache "q" 1).2⟩

/-! ## Claim C5: findReferences -/

theorem referencesInCalls_eq (uri : String) (predicate : ParserResultPredicate)
    (name : String) (arity : Nat) (calls : List EnhancedCallInfo) :
    RealAnalysisCache.referencesInCalls uri predicate name arity calls =
      (calls.filter (fun c => c.name == name && c.arity == arity)).map
        (fun c => { uri := uri, call := c, callingPredicate := predicate }) := by
  induction calls with
  | nil => rfl
  | cons call rest ih =>
    by_cases h : (call.name == name && call.arity == arity) = true
    · simp [RealAnalysisCache.referencesInCalls, h, List.filter_cons, ih]
    · simp only [Bool.not_eq_true] at h
      simp [RealAnalysisCache.referencesInCalls, h, List.filter_cons, ih]

theorem referencesInPredicates_eq (uri : String) (name : String) (arity : Nat)
    (predicates : List ParserResultPredicate) :
    RealAnalysisCache.referencesInPredicates uri name arity predicates =
      predicates.flatMap (fun predicate =>
        (predicate.calls.filter (fun c => c.name == name && c.arity == arity)).map
          (fun c => { uri := uri, call := c, callingPredicate := predicate })) := by
  induction predicates with
  | nil => rfl
  | cons predicate rest ih =>
    simp [RealAnalysisCache.referencesInPredicates, referencesInCalls_eq, ih]

/-! ## Claim C1: position containment in findElementAtPosition -/

/-- Claim C1 counterexample: at position (0,6) — past the definition
range's end character 5 on its end line — the containment predicate the
claim states is false, yet `findElementAtPosition` still reports a
definition hit, because the end-line branch of `isPositionInRange`
accepts every character at or after the end character. -/
theorem isPositionInRange_claim_counterexample :
    RealAnalysisCache.findElementAtPosition boundaryCache "file:a.pl"
      { line := 0, character := 6 } =
      some (.definition boundaryPredicate "file:a.pl") ∧
    ¬ claimContainment { line := 0, character := 6 }
      (blintRangeToLspRange boundaryPredicate.definitionRange) :=
  ⟨by rfl, by decide⟩

/-- Claim C1, amended: `findElementAtPosition` treats a position as
contained in a range exactly when its line lies within
[start.line, end.line] and, on the start line, its character is at least
start.character — with *no upper character bound on the end line*; in
particular a contained position over the first record's definition range
(such as one exactly at its end character) yields a definition hit. -/
theorem isPositionInRange_characterization :
    (∀ (position : Position) (range : Range),
      isPositionInRange position range = true ↔
        ((range.start.line ≤ position.line ∧ position.line ≤ range.«end».line) ∧
         (position.line = range.start.line →
           range.start.character ≤ position.character))) ∧
    (∀ (cache : Cache) (uri : String) (position : Position) (parseResult : ParseResult)
       (predicate : ParserResultPredicate) (rest : List ParserResultPredicate),
      RealAnalysisCache.get cache uri = some parseResult →
      parseResult.predicates = predicate :: rest →
      isPositionInRange position (blintRangeToLspRange predicate.definitionRange) = true →
      RealAnalysisCache.findElementAtPosition cache uri position =
        some (.definition predicate uri)) := by
  constructor
  · intro position range
    unfold isPositionInRange
    split_ifs with h1 h2 h3 <;> simp <;> omega
  · intro cache uri position parseResult predicate rest hget hpreds hin
    simp [RealAnalysisCache.findElementAtPosition, hget, hpreds,
      RealAnalysisCache.findElementInPredicates, hin]

/-- Claim C1 witness: position (0,5), exactly at the definition range's
end character on its end line, satisfies the amended containment test and
is resolved to a definition hit. -/
theorem isPositionInRange_characterization_witness :
    isPositionInRange { line := 0, character := 5 }
      (blintRangeToLspRange boundaryPredicate.definitionRange) = true ∧
    RealAnalysisCache.findElementAtPosition boundaryCache "file:a.pl"
      { line := 0, character := 5 } =
      some (.definition boundaryPredicate "file:a.pl") := by
  constructor
  · exact (isPositionInRange_characterization.1 { line := 0, character := 5 }
      (blintRangeToLspRange boundaryPredicate.definitionRange)).mpr (by decide)
  · exact isPositionInRange_characterization.2 boundaryCache "file:a.pl"
      { line := 0, character := 5 }
      { filePath := "a.pl", predicates := [boundaryPredicate], diagnostics := [] }
      boundaryPredicate [] (by rfl) (by rfl) (by decide)

/-- Claim C5: `findReferences` returns exactly one result per CallSite
matching `(name, arity)` across all cached indexes, in cache iteration
order, each result carrying the file id, the matching call unchanged, and
the predicate record containing the call. -/
theorem findReferences_spec :
    ∀ (cache : Cache) (name : String) (arity : Nat),
      RealAnalysisCache.findReferences cache name arity =
        specFindReferences cache name arity := by
  intro cache name arity
  induction cache with
  | nil => rfl
  | cons entry rest ih =>
    obtain ⟨uri, parseResult⟩ := entry
    simp [RealAnalysisCache.findReferences, specFindReferences,
      referencesInPredicates_eq, ih, specFindReferences]

/-! ## Claim C4: single-flight analysis guard -/

/-- Claim C4: a trigger arriving while an analysis for the same file id is
in flight is dropped without any state change; two triggers before the
first analysis settles enqueue the id once and start exactly one
analysis run; and the at-most-one-entry-per-id queue invariant is
preserved both by triggering and by settlement. -/
theorem single_flight_guard :
    (∀ (st : ServerState) (uri : String),
      st.analysisQueue.contains uri = true → triggerAnalysis st uri = st) ∧
    (∀ (st : ServerState) (uri : String),
      st.analysisQueue.contains uri = false →
        (triggerAnalysis (triggerAnalysis st uri) uri).invocations =
          st.invocations ++ [uri] ∧
        (triggerAnalysis (triggerAnalysis st uri) uri).analysisQueue =
          st.analysisQueue ++ [uri]) ∧
    (∀ (st : ServerState) (uri target : String),
      st.analysisQueue.count target ≤ 1 →
        (triggerAnalysis st uri).analysisQueue.count target ≤ 1 ∧
        ∀ (outcome : AnalysisOutcome),
          (analysisSettled st uri outcome).1.analysisQueue.count target ≤ 1) := by
  refine ⟨?_, ?_, ?_⟩
  · intro st uri h
    have hm : uri ∈ st.analysisQueue := by simpa using h
    simp [triggerAnalysis, hm]
  · intro st uri h
    have hm : uri ∉ st.analysisQueue := by simpa using h
    constructor
    · simp [triggerAnalysis, hm]
    · simp [triggerAnalysis, hm]
  · intro st uri target h
    constructor
    · by_cases hm : uri ∈ st.analysisQueue
      · have hid : triggerAnalysis st uri = st := by simp [triggerAnalysis, hm]
        rw [hid]
        exact h
      · have hqueue : (triggerAnalysis st uri).analysisQueue =
            st.analysisQueue ++ [uri] := by
          simp [triggerAnalysis, hm]
        rw [hqueue, List.count_append]
        by_cases ht : uri = target
        · subst ht
          have hz : st.analysisQueue.count uri = 0 := List.count_eq_zero.mpr hm
          simp [hz]
        · have hz : List.count target [uri] = 0 := by
            rw [List.count_eq_zero]
            intro hmem
            rw [List.mem_singleton] at hmem
            exact ht hmem.symm
          omega
    · intro outcome
      have hpq : (performAnalysis st uri outcome).1.analysisQueue = st.analysisQueue := by
        cases outcome <;> rfl
      have hsub : (analysisSettled st uri outcome).1.analysisQueue.Sublist
          st.analysisQueue := by
        have : (analysisSettled st uri outcome).1.analysisQueue =
            st.analysisQueue.filter (fun u => u != uri) := by
          simp [analysisSettled, hpq]
        rw [this]
        exact List.filter_sublist _
      exact le_trans (hsub.count_le target) h

/-- Claim C4 witness: from an idle state, two triggers for the same file
before settlement record exactly one analysis invocation. -/
theorem single_flight_guard_witness :
    (triggerAnalysis (triggerAnalysis witnessServerState "file:a.pl") "file:a.pl").invocations =
      witnessServerState.invocations ++ ["file:a.pl"] ∧
    (triggerAnalysis witnessServerState "file:a.pl").analysisQueue.count "file:a.pl" ≤ 1 :=
  ⟨(single_flight_guard.2.1 witnessServerState "file:a.pl" (by rfl)).1,
   (single_flight_guard.2.2 witnessServerState "file:a.pl" "file:a.pl" (by decide)).1⟩

/-! ## Claim C7: internal analysis errors -/

/-- Claim C7: when `performAnalysis` settles with an internal error, the
file's cache entry is evicted, exactly one synthetic error diagnostic
positioned at line 0, character 0 is published for that file, and the
call resolves to `undefined` rather than rethrowing. -/
theorem performAnalysis_internal_error :
    ∀ (st : ServerState) (uri message : String),
      (performAnalysis st uri (.internalError message)).1.cache =
        RealAnalysisCache.delete st.cache uri ∧
      RealAnalysisCache.get (performAnalysis st uri (.internalError message)).1.cache uri =
        none ∧
      mapGet (performAnalysis st uri (.internalError message)).1.published uri =
        some [internalErrorDiagnostic message] ∧
      (internalErrorDiagnostic message).range.start.line = 0 ∧
      (internalErrorDiagnostic message).range.start.character = 0 ∧
      (internalErrorDiagnostic message).severity = .error ∧
      (performAnalysis st uri (.internalError message)).2 = none := by
  intro st uri message
  refine ⟨rfl, ?_, ?_, rfl, rfl, rfl, rfl⟩
  · exact mapGet_mapDelete_self st.cache uri
  · exact mapGet_mapSet_self st.published uri [internalErrorDiagnostic message]

/-! ## Claim C10: analyzeDocument on an unknown file -/

/-- Claim C10: when a file id has no cached entry, no in-flight analysis,
and no managed document, `analyzeDocument` resolves to `undefined`
without starting an analysis or touching any state. -/
theorem analyzeDocument_unmanaged_absent :
    ∀ (st : ServerState) (uri : String),
      RealAnalysisCache.get st.cache uri = none →
      st.analysisQueue.contains uri = false →
      st.documents.contains uri = false →
      analyzeDocument st uri = (st, .resolved none) := by
  intro st uri hc hq hd
  have hq' : uri ∉ st.analysisQueue := by simpa using hq
  have hd' : uri ∉ st.documents := by simpa using hd
  simp [analyzeDocument, hc, hq', hd']

/-- Claim C10 witness: on an empty server state, `analyzeDocument`
resolves to `undefined` and leaves the state untouched. -/
theorem analyzeDocument_unmanaged_absent_witness :
    analyzeDocument
      { cache := [], analysisQueue := [], documents := [], published := [],
        invocations := [] } "file:x.pl" =
      ({ cache := [], analysisQueue := [], documents := [], published := [],
         invocations := [] }, .resolved none) :=
  analyzeDocument_unmanaged_absent _ "file:x.pl" rfl rfl rfl

/-! ## Claim C9: closing a file -/

theorem mem_mapDelete {α : Type} (m : List (String × α)) (key : String)
    (e : String × α) (h : e ∈ mapDelete m key) : e ∈ m ∧ e.1 ≠ key := by
  induction m with
  | nil => simp [mapDelete] at h
  | cons f rest ih =>
    by_cases hf : (f.1 == key) = true
    · rw [mapDelete, if_pos hf] at h
      obtain ⟨hm, hk⟩ := ih h
      exact ⟨List.mem_cons_of_mem _ hm, hk⟩
    · rw [mapDelete, if_neg hf] at h
      rcases List.mem_cons.mp h with h1 | h2
      · subst h1
        rw [Bool.not_eq_true] at hf
        exact ⟨List.mem_cons_self _ _, beq_eq_false_iff_ne.mp hf⟩
      · obtain ⟨hm, hk⟩ := ih h2
        exact ⟨List.mem_cons_of_mem _ hm, hk⟩

theorem findDefinitionByNameArity_uri_mem (cache : Cache) (name : String) (arity : Nat)
    (r : String × ParserResultPredicate)
    (h : RealAnalysisCache.findDefinitionByNameArity cache name arity = some r) :
    ∃ entry ∈ cache, entry.1 = r.1 := by
  induction cache with
  | nil => simp [RealAnalysisCache.findDefinitionByNameArity] at h
  | cons entry rest ih =>
    obtain ⟨uri, parseResult⟩ := entry
    rw [RealAnalysisCache.findDefinitionByNameArity] at h
    cases hf : RealAnalysisCache.findPredicate parseResult.predicates name arity with
    | some p =>
      rw [hf] at h
      injection h with h
      exact ⟨(uri, parseResult), List.mem_cons_self _ _, by rw [← h]⟩
    | none =>
      rw [hf] at h
      obtain ⟨entry', hmem, heq⟩ := ih h
      exact ⟨entry', List.mem_cons_of_mem _ hmem, heq⟩

theorem findReferences_uri_mem (cache : Cache) (name : String) (arity : Nat)
    (ref : ReferenceInfo) (h : ref ∈ RealAnalysisCache.findReferences cache name arity) :
    ∃ entry ∈ cache, entry.1 = ref.uri := by
  rw [findReferences_spec] at h
  unfold specFindReferences at h
  rw [List.mem_flatMap] at h
  obtain ⟨entry, hmem, hin⟩ := h
  rw [List.mem_flatMap] at hin
  obtain ⟨predicate, _, hin⟩ := hin
  rw [List.mem_map] at hin
  obtain ⟨c, _, rfl⟩ := hin
  exact ⟨entry, hmem, rfl⟩

/-- Claim C9: closing a file deletes exactly that file's cache entry and
publishes an empty diagnostic list for it, leaves every other cached
index unchanged, and afterwards neither `findDefinitionByNameArity` nor
`findReferences` returns a result drawn from the closed file. -/
theorem closeDocument_frame :
    ∀ (st : ServerState) (uri : String),
      RealAnalysisCache.get (closeDocument st uri).cache uri = none ∧
      (∀ uri', uri' ≠ uri →
        RealAnalysisCache.get (closeDocument st uri).cache uri' =
          RealAnalysisCache.get st.cache uri') ∧
      mapGet (closeDocument st uri).published uri = some [] ∧
      (∀ uri', uri' ≠ uri →
        mapGet (closeDocument st uri).published uri' = mapGet st.published uri') ∧
      (∀ (name : String) (arity : Nat) (r : String × ParserResultPredicate),
        RealAnalysisCache.findDefinitionByNameArity (closeDocument st uri).cache name arity =
          some r → r.1 ≠ uri) ∧
      (∀ (name : String) (arity : Nat) (ref : ReferenceInfo),
        ref ∈ RealAnalysisCache.findReferences (closeDocument st uri).cache name arity →
          ref.uri ≠ uri) := by
  intro st uri
  refine ⟨mapGet_mapDelete_self st.cache uri,
    fun uri' h => mapGet_mapDelete_other st.cache uri uri' h,
    mapGet_mapSet_self st.published uri [],
    fun uri' h => mapGet_mapSet_other st.published uri uri' [] h,
    ?_, ?_⟩
  · intro name arity r h
    obtain ⟨entry, hmem, heq⟩ := findDefinitionByNameArity_uri_mem _ name arity r h
    obtain ⟨_, hk⟩ := mem_mapDelete st.cache uri entry hmem
    rw [← heq]
    exact hk
  · intro name arity ref h
    obtain ⟨entry, hmem, heq⟩ := findReferences_uri_mem _ name arity ref h
    obtain ⟨_, hk⟩ := mem_mapDelete st.cache uri entry hmem
    rw [← heq]
    exact hk

/-- Claim C9 witness: closing the only cached file empties its entry and
published diagnostics while a distinct id is unaffected. -/
theorem closeDocument_frame_witness :
    RealAnalysisCache.get (closeDocument witnessServerState "file:a.pl").cache
      "file:a.pl" = none ∧
    RealAnalysisCache.get (closeDocument witnessServerState "file:a.pl").cache
      "file:b.pl" = RealAnalysisCache.get witnessServerState.cache "file:b.pl" ∧
    mapGet (closeDocument witnessServerState "file:a.pl").published "file:a.pl" =
      some [] :=
  ⟨(closeDocument_frame witnessServerState "file:a.pl").1,
   (closeDocument_frame witnessServerState "file:a.pl").2.1 "file:b.pl" (by decide),
   (closeDocument_frame witnessServerState "file:a.pl").2.2.1⟩

/-! ## Claim C8: pre-order body traversal -/

mutual

theorem findCallsInTerm_eq : ∀ (term : AstTerm) (calls : List EnhancedCallInfo),
    findCallsInTerm term calls = calls ++ specCallsTerm term
  | .atom _ _ _, calls => by simp [findCallsInTerm, specCallsTerm]
  | .var _ _ _, calls => by simp [findCallsInTerm, specCallsTerm]
  | .number _ _ _, calls => by simp [findCallsInTerm, specCallsTerm]
  | .operator _ _ _, calls => by simp [findCallsInTerm, specCallsTerm]
  | .cut _ _, calls => by simp [findCallsInTerm, specCallsTerm]
  | .functor line column name arity params, calls => by
    simp only [findCallsInTerm, specCallsTerm]
    rw [findCallsInBody_eq params]
    simp
  | .binop _ _ _ _ _ left right, calls => by
    simp only [findCallsInTerm, specCallsTerm]
    rw [findCallsInTerm_eq left, findCallsInTerm_eq right]
    simp
  | .list _ _ items, calls => by
    simp only [findCallsInTerm, specCallsTerm]
    exact findCallsInBody_eq items calls
  | .paren _ _ content, calls => by
    simp only [findCallsInTerm, specCallsTerm]
    exact findCallsInBody_eq content calls

theorem findCallsInBody_eq : ∀ (body : List AstTerm) (calls : List EnhancedCallInfo),
    findCallsInBody body calls = calls ++ specCallsList body
  | [], calls => by simp [findCallsInBody, specCallsList]
  | term :: rest, calls => by
    simp only [findCallsInBody, specCallsList]
    rw [findCallsInTerm_eq term, findCallsInBody_eq rest]
    simp

end

/-- Claim C8: the body traversal of the transformer is the pre-order,
depth-first collection described by `specCallsTerm`/`specCallsList`:
every functor application is recorded as a CallSite with its own name,
declared arity and location before the calls inside its arguments; infix
operands are traversed left then right, list items and parenthesized
contents in order; atoms, variables, numbers, operators and cuts
contribute no CallSite and are not recursed into. -/
theorem findCallsInBody_preorder :
    ∀ (body : List AstTerm) (calls : List EnhancedCallInfo),
      findCallsInBody body calls = calls ++ specCallsList body :=
  fun body calls => findCallsInBody_eq body calls

/-! ## Step characterization of the transformer's top-level loop -/

theorem processTopLevel_clauseData_none (st : TransformState) (item : AstTopLevel)
    (h : clauseData item = none) :
    ∃ st', processTopLevel st item = .ok st' ∧
      st'.predicatesMap = st.predicatesMap ∧
      (st'.diagnostics = st.diagnostics ∨
        ∃ d, st'.diagnostics = st.diagnostics ++ [d]) := by
  cases item with
  | directive line => exact ⟨st, rfl, rfl, Or.inl rfl⟩
  | unknownKind => exact ⟨st, rfl, rfl, Or.inl rfl⟩
  | parseError line column kind => exact ⟨_, rfl, rfl, Or.inr ⟨_, rfl⟩⟩
  | fact line fullRange head =>
    cases head with
    | none => exact ⟨st, rfl, rfl, Or.inl rfl⟩
    | some headTerm =>
      cases hh : getHeadNameArity headTerm with
      | none =>
        refine ⟨st, ?_, rfl, Or.inl rfl⟩
        simp [processTopLevel, processClause, hh]
      | some na =>
        obtain ⟨name, arity⟩ := na
        rw [clauseData] at h
        simp [hh] at h
  | rule line fullRange head body =>
    cases head with
    | none => exact ⟨st, rfl, rfl, Or.inl rfl⟩
    | some headTerm =>
      cases hh : getHeadNameArity headTerm with
      | none =>
        refine ⟨st, ?_, rfl, Or.inl rfl⟩
        simp [processTopLevel, processClause, hh]
      | some na =>
        obtain ⟨name, arity⟩ := na
        rw [clauseData] at h
        simp [hh] at h

theorem processTopLevel_clauseData_some (st : TransformState) (item : AstTopLevel)
    (c : ClauseData) (h : clauseData item = some c) :
    processTopLevel st item =
      (match mergeClause (mapGet st.predicatesMap (predicateKey c.name c.arity)) c with
       | .error e => .error e
       | .ok r => .ok { st with predicatesMap := mapSet st.predicatesMap (predicateKey c.name c.arity) r }) := by
  cases item with
  | directive line => simp [clauseData] at h
  | unknownKind => simp [clauseData] at h
  | parseError line column kind => simp [clauseData] at h
  | fact line fullRange head =>
    cases head with
    | none => simp [clauseData] at h
    | some headTerm =>
      cases hh : getHeadNameArity headTerm with
      | none => rw [clauseData] at h; simp [hh] at h
      | some na =>
        obtain ⟨name, arity⟩ := na
        rw [clauseData] at h
        simp [hh] at h
        subst h
        cases hm : mapGet st.predicatesMap (predicateKey name arity) with
        | none =>
          cases fullRange with
          | none =>
            simp [processTopLevel, processClause, hh, hm, mergeClause]
          | some fr =>
            simp [processTopLevel, processClause, hh, hm, mergeClause, newRecord]
        | some entry =>
          simp [processTopLevel, processClause, hh, hm, mergeClause, mergeRecord]
  | rule line fullRange head body =>
    cases head with
    | none => simp [clauseData] at h
    | some headTerm =>
      cases hh : getHeadNameArity headTerm with
      | none => rw [clauseData] at h; simp [hh] at h
      | some na =>
        obtain ⟨name, arity⟩ := na
        rw [clauseData] at h
        simp [hh] at h
        subst h
        cases hm : mapGet st.predicatesMap (predicateKey name arity) with
        | none =>
          cases fullRange with
          | none =>
            simp [processTopLevel, processClause, hh, hm, mergeClause]
          | some fr =>
            simp [processTopLevel, processClause, hh, hm, mergeClause, newRecord]
        | some entry =>
          simp [processTopLevel, processClause, hh, hm, mergeClause, mergeRecord]

theorem clauseData_fullRange (item : AstTopLevel) (c : ClauseData)
    (h : clauseData item = some c) :
    clauseHasFullRange item = c.fullRange.isSome := by
  cases item with
  | directive line => simp [clauseData] at h
  | unknownKind => simp [clauseData] at h
  | parseError line column kind => simp [clauseData] at h
  | fact line fullRange head =>
    cases head with
    | none => simp [clauseData] at h
    | some headTerm =>
      cases hh : getHeadNameArity headTerm with
      | none => rw [clauseData] at h; simp [hh] at h
      | some na =>
        obtain ⟨name, arity⟩ := na
        rw [clauseData] at h
        simp [hh] at h
        subst h
        rfl
  | rule line fullRange head body =>
    cases head with
    | none => simp [clauseData] at h
    | some headTerm =>
      cases hh : getHeadNameArity headTerm with
      | none => rw [clauseData] at h; simp [hh] at h
      | some na =>
        obtain ⟨name, arity⟩ := na
        rw [clauseData] at h
        simp [hh] at h
        subst h
        rfl

/-! ## Claim C3: transformer totality -/

/-- Claim C3 counterexample: a rule with a well-formed head but missing
full-range data makes `transformAstToParseResult` throw (in the
JavaScript source, `getSourceRangeFromAstRange(topLevel.fullRange)`
dereferences `undefined`) instead of skipping or diagnosing the item. -/
theorem transform_missing_fullRange_raises :
    transformAstToParseResult missingFullRangeAst =
      .error "TypeError: Cannot read properties of undefined (reading start)" := by
  rfl

theorem processTopLevel_total (st : TransformState) (item : AstTopLevel)
    (h : clauseHasFullRange item = true) :
    ∃ st', processTopLevel st item = .ok st' ∧
      (st' = st ∨
       (st'.predicatesMap = st.predicatesMap ∧
         ∃ d, st'.diagnostics = st.diagnostics ++ [d]) ∨
       (st'.diagnostics = st.diagnostics ∧
         ∃ key record, st'.predicatesMap = mapSet st.predicatesMap key record)) := by
  cases hc : clauseData item with
  | none =>
    obtain ⟨st', hstep, hmap, hdiag⟩ := processTopLevel_clauseData_none st item hc
    refine ⟨st', hstep, ?_⟩
    rcases hdiag with hdiag | ⟨d, hdiag⟩
    · left
      cases st'
      cases st
      simp_all
    · right; left
      exact ⟨hmap, d, hdiag⟩
  | some c =>
    rw [processTopLevel_clauseData_some st item c hc]
    cases hm : mapGet st.predicatesMap (predicateKey c.name c.arity) with
    | none =>
      have hfr : c.fullRange.isSome = true := by
        rw [← clauseData_fullRange item c hc]
        exact h
      cases hfro : c.fullRange with
      | none => rw [hfro] at hfr; simp at hfr
      | some fr =>
        simp only [mergeClause, hfro]
        exact ⟨_, rfl, Or.inr (Or.inr
          ⟨rfl, predicateKey c.name c.arity, newRecord c fr, rfl⟩)⟩
    | some entry =>
      simp only [mergeClause]
      exact ⟨_, rfl, Or.inr (Or.inr
        ⟨rfl, predicateKey c.name c.arity, mergeRecord entry c, rfl⟩)⟩

theorem processTopLevels_ok (items : List AstTopLevel) :
    ∀ st : TransformState, (∀ item ∈ items, clauseHasFullRange item = true) →
      ∃ st', processTopLevels st items = .ok st' := by
  induction items with
  | nil => exact fun st _ => ⟨st, rfl⟩
  | cons item rest ih =>
    intro st hall
    obtain ⟨st1, hstep, _⟩ :=
      processTopLevel_total st item (hall item (List.mem_cons_self _ _))
    obtain ⟨st', hrest⟩ :=
      ih st1 (fun i hi => hall i (List.mem_cons_of_mem _ hi))
    refine ⟨st', ?_⟩
    rw [processTopLevels, hstep]
    exact hrest

/-- Claim C3, amended: the transformer is total on every syntax tree in
which each rule/fact item carries full-range data — items with a missing
head, missing position info or unknown node kinds never make it raise —
and each top-level item either leaves the state unchanged (skipped),
appends exactly one diagnostic, or installs one predicate record under
one key.  (An item *without* full-range data that opens a new predicate
makes the transformer throw, per the counterexample.) -/
theorem transform_total_trichotomy :
    (∀ ast : PrologAst, (∀ item ∈ ast.predicates, clauseHasFullRange item = true) →
      ∃ result, transformAstToParseResult ast = .ok result) ∧
    (∀ (st : TransformState) (item : AstTopLevel), clauseHasFullRange item = true →
      ∃ st', processTopLevel st item = .ok st' ∧
        (st' = st ∨
         (st'.predicatesMap = st.predicatesMap ∧
           ∃ d, st'.diagnostics = st.diagnostics ++ [d]) ∨
         (st'.diagnostics = st.diagnostics ∧
           ∃ key record, st'.predicatesMap = mapSet st.predicatesMap key record))) := by
  constructor
  · intro ast hall
    obtain ⟨st', hok⟩ :=
      processTopLevels_ok ast.predicates { predicatesMap := [], diagnostics := [] } hall
    exact ⟨_, by rw [transformAstToParseResult, hok]⟩
  · exact processTopLevel_total

/-- Claim C3 witness: a tree with a fact, a parse error, a directive and
an unknown item transforms successfully, and a parse-error item appends
exactly one diagnostic. -/
theorem transform_total_trichotomy_witness :
    (∃ result, transformAstToParseResult totalWitnessAst = .ok result) ∧
    (∃ st', processTopLevel initialTransformState (.parseError 2 1 "syntax") = .ok st' ∧
      (st' = initialTransformState ∨
       (st'.predicatesMap = initialTransformState.predicatesMap ∧
         ∃ d, st'.diagnostics = initialTransformState.diagnostics ++ [d]) ∨
       (st'.diagnostics = initialTransformState.diagnostics ∧
         ∃ key record,
           st'.predicatesMap = mapSet initialTransformState.predicatesMap key record))) :=
  ⟨transform_total_trichotomy.1 totalWitnessAst (by decide),
   transform_total_trichotomy.2 initialTransformState (.parseError 2 1 "syntax") (by rfl)⟩

/-! ## Claim C2: clause merging -/

theorem mapSet_absent {α : Type} (m : List (String × α)) (key : String) (v : α)
    (h : mapGet m key = none) : mapSet m key v = m ++ [(key, v)] := by
  induction m with
  | nil => rfl
  | cons e rest ih =>
    by_cases he : (e.1 == key) = true
    · simp [mapGet, he] at h
    · simp only [mapGet, he] at h
      simp [mapSet, he, ih h]

theorem mem_mapSet {α : Type} (m : List (String × α)) (key : String) (v : α)
    (e : String × α) (h : e ∈ mapSet m key v) : e = (key, v) ∨ e ∈ m := by
  induction m with
  | nil =>
    rw [mapSet] at h
    exact Or.inl (List.mem_singleton.mp h)
  | cons f rest ih =>
    by_cases hf : (f.1 == key) = true
    · rw [mapSet, if_pos hf] at h
      rcases List.mem_cons.mp h with h1 | h2
      · exact Or.inl h1
      · exact Or.inr (List.mem_cons_of_mem _ h2)
    · rw [mapSet, if_neg hf] at h
      rcases List.mem_cons.mp h with h1 | h2
      · exact Or.inr (h1 ▸ List.mem_cons_self f rest)
      · rcases ih h2 with h3 | h4
        · exact Or.inl h3
        · exact Or.inr (List.mem_cons_of_mem _ h4)

theorem keys_mapSet_present {α : Type} (m : List (String × α)) (key : String)
    (v w : α) (h : mapGet m key = some w) :
    (mapSet m key v).map (fun e => e.1) = m.map (fun e => e.1) := by
  induction m with
  | nil => simp [mapGet] at h
  | cons e rest ih =>
    by_cases he : (e.1 == key) = true
    · have he' : e.1 = key := by simpa using he
      simp [mapSet, he, he']
    · simp only [mapGet, he] at h
      simp [mapSet, he, ih h]

theorem processTopLevels_mergeClauses :
    ∀ (items : List AstTopLevel) (st st' : TransformState),
      processTopLevels st items = .ok st' →
      ∀ key, mergeClauses (mapGet st.predicatesMap key) (contribsFor key items) =
        .ok (mapGet st'.predicatesMap key) := by
  intro items
  induction items with
  | nil =>
    intro st st' h key
    rw [processTopLevels] at h
    injection h with h
    subst h
    simp [contribsFor, mergeClauses]
  | cons item rest ih =>
    intro st st' h key
    rw [processTopLevels] at h
    cases hc : clauseData item with
    | none =>
      obtain ⟨st1, hstep, hmap, _⟩ := processTopLevel_clauseData_none st item hc
      rw [hstep] at h
      have hcon : contribsFor key (item :: rest) = contribsFor key rest := by
        simp [contribsFor, List.filterMap_cons, hc]
      rw [hcon, ← hmap]
      exact ih st1 st' h key
    | some c =>
      rw [processTopLevel_clauseData_some st item c hc] at h
      cases hm : mergeClause (mapGet st.predicatesMap (predicateKey c.name c.arity)) c with
      | error e =>
        rw [hm] at h
        simp at h
      | ok r =>
        rw [hm] at h
        by_cases hkey : (predicateKey c.name c.arity == key) = true
        · have hk : predicateKey c.name c.arity = key := by simpa using hkey
          have hcon : contribsFor key (item :: rest) = c :: contribsFor key rest := by
            simp [contribsFor, List.filterMap_cons, hc, hk]
          rw [hcon]
          simp only [mergeClauses]
          rw [hk] at hm
          rw [hm]
          have hget : mapGet
              (mapSet st.predicatesMap (predicateKey c.name c.arity) r) key = some r := by
            rw [hk]
            exact mapGet_mapSet_self st.predicatesMap key r
          have hrest := ih _ st' h key
          rw [hget] at hrest
          exact hrest
        · rw [Bool.not_eq_true] at hkey
          have hk : predicateKey c.name c.arity ≠ key := beq_eq_false_iff_ne.mp hkey
          have hcon : contribsFor key (item :: rest) = contribsFor key rest := by
            simp [contribsFor, List.filterMap_cons, hc, hk]
          rw [hcon]
          have hget : mapGet
              (mapSet st.predicatesMap (predicateKey c.name c.arity) r) key =
              mapGet st.predicatesMap key :=
            mapGet_mapSet_other _ _ _ _ (Ne.symm hk)
          have hrest := ih _ st' h key
          rw [hget] at hrest
          exact hrest

theorem mergeClauses_some_ok :
    ∀ (cs : List ClauseData) (r : ParserResultPredicate),
      mergeClauses (some r) cs = .ok (some (mergedRecord r cs)) := by
  intro cs
  induction cs with
  | nil =>
    intro r
    simp [mergeClauses, mergedRecord]
  | cons c rest ih =>
    intro r
    simp only [mergeClauses, mergeClause]
    rw [ih (mergeRecord r c)]
    simp [mergedRecord, mergeRecord, List.append_assoc]

theorem newRecord_key (c : ClauseData) (fr : AstRange) :
    predicateKey (newRecord c fr).name (newRecord c fr).arity =
      predicateKey c.name c.arity := rfl

theorem processTopLevels_wellKeyed :
    ∀ (items : List AstTopLevel) (st st' : TransformState),
      processTopLevels st items = .ok st' →
      mapWellKeyed st.predicatesMap → mapWellKeyed st'.predicatesMap := by
  intro items
  induction items with
  | nil =>
    intro st st' h hwk
    rw [processTopLevels] at h
    injection h with h
    subst h
    exact hwk
  | cons item rest ih =>
    intro st st' h hwk
    rw [processTopLevels] at h
    cases hc : clauseData item with
    | none =>
      obtain ⟨st1, hstep, hmap, _⟩ := processTopLevel_clauseData_none st item hc
      rw [hstep] at h
      exact ih st1 st' h (by rw [hmap]; exact hwk)
    | some c =>
      rw [processTopLevel_clauseData_some st item c hc] at h
      cases hm : mapGet st.predicatesMap (predicateKey c.name c.arity) with
      | none =>
        rw [hm] at h
        cases hfro : c.fullRange with
        | none =>
          simp only [mergeClause, hfro] at h
          simp at h
        | some fr =>
          simp only [mergeClause, hfro] at h
          refine ih _ st' h ?_
          rw [mapSet_absent st.predicatesMap _ _ hm]
          constructor
          · intro e he
            rcases List.mem_append.mp he with h1 | h2
            · exact hwk.1 e h1
            · rw [List.mem_singleton.mp h2]
              rfl
          · rw [List.map_append, List.nodup_append]
            refine ⟨hwk.2, List.nodup_singleton _, ?_⟩
            intro a ha hb
            simp only [List.map_cons, List.map_nil, List.mem_singleton] at hb
            subst hb
            exact (mapGet_eq_none_iff st.predicatesMap _).mp hm ha
      | some entry =>
        rw [hm] at h
        simp only [mergeClause] at h
        refine ih _ st' h ?_
        have hkey : predicateKey c.name c.arity =
            predicateKey entry.name entry.arity :=
          (hwk.1 _ (mapGet_some_mem st.predicatesMap _ entry hm)).symm ▸ rfl
        constructor
        · intro e he
          rcases mem_mapSet _ _ _ e he with h1 | h2
          · rw [h1]
            exact hwk.1 (predicateKey c.name c.arity, entry)
              (mapGet_some_mem st.predicatesMap _ entry hm)
          · exact hwk.1 e h2
        · rw [keys_mapSet_present st.predicatesMap _ _ entry hm]
          exact hwk.2

theorem values_countP_one :
    ∀ (m : List (String × ParserResultPredicate)) (key : String)
      (r : ParserResultPredicate), mapWellKeyed m → mapGet m key = some r →
      (m.map (fun e => e.2)).countP (fun p => predicateKey p.name p.arity == key) = 1 := by
  intro m
  induction m with
  | nil =>
    intro key r _ h
    simp [mapGet] at h
  | cons e rest ih =>
    intro key r hwk h
    obtain ⟨hall, hnodup⟩ := hwk
    rw [List.map_cons] at hnodup
    obtain ⟨hhead, htail⟩ := List.nodup_cons.mp hnodup
    by_cases he : (e.1 == key) = true
    · have he' : e.1 = key := by simpa using he
      have hpred : (predicateKey e.2.name e.2.arity == key) = true := by
        rw [← hall e (List.mem_cons_self _ _)]
        exact he
      have hzero : (rest.map (fun e => e.2)).countP
          (fun p => predicateKey p.name p.arity == key) = 0 := by
        rw [List.countP_eq_zero]
        intro p hp
        rw [List.mem_map] at hp
        obtain ⟨f, hf, rfl⟩ := hp
        rw [← hall f (List.mem_cons_of_mem _ hf)]
        intro hbe
        have hfk : f.1 = key := by simpa using hbe
        apply hhead
        rw [he', ← hfk]
        exact List.mem_map_of_mem _ hf
      rw [List.map_cons, List.countP_cons, hzero, hpred]
      simp
    · have hpred : (predicateKey e.2.name e.2.arity == key) = false := by
        rw [← hall e (List.mem_cons_self _ _)]
        simpa using he
      rw [mapGet, if_neg he] at h
      rw [List.map_cons, List.countP_cons, hpred]
      simp only [Bool.false_eq_true, if_false, Nat.add_zero]
      exact ih key r ⟨fun f hf => hall f (List.mem_cons_of_mem _ hf), htail⟩ h

/-- Claim C2, amended: for every input tree, each group of rule/fact
clauses sharing a map key produces exactly one record; its
`definitionRange` is the first clause's head range and is never changed
by later merges, and its `calls` list is the concatenation, in clause
order, of all merged clauses' call lists; its `fullRange`, however, keeps
the first clause's full-range start and end *characters* unchanged, and
only its lines grow: the start line by min against each later clause's
item line (falling back to that clause's head-range start line), and the
end line by max against each later clause's *item line* — the line the
clause starts on — not the line it ends on, so the merged `fullRange`
need not cover the end of a later multi-line clause. -/
theorem transform_merge_law :
    ∀ (ast : PrologAst) (result : ParseResult) (key : String)
      (first : ClauseData) (rest : List ClauseData),
      transformAstToParseResult ast = .ok result →
      contribsFor key ast.predicates = first :: rest →
      ∃ fr record,
        first.fullRange = some fr ∧
        record ∈ result.predicates ∧
        result.predicates.countP (fun p => predicateKey p.name p.arity == key) = 1 ∧
        record.name = first.name ∧
        record.arity = first.arity ∧
        record.definitionRange = first.definitionRange ∧
        record.calls = first.calls ++ (rest.map (fun c => c.calls)).flatten ∧
        record.fullRange.startCharacter = (getSourceRangeFromAstRange fr).startCharacter ∧
        record.fullRange.endCharacter = (getSourceRangeFromAstRange fr).endCharacter ∧
        record.fullRange.startLine = rest.foldl
          (fun a c => min a (jsOr c.line c.definitionRange.startLine))
          (getSourceRangeFromAstRange fr).startLine ∧
        record.fullRange.endLine = rest.foldl
          (fun a c => max a (jsOr c.line c.definitionRange.endLine))
          (getSourceRangeFromAstRange fr).endLine := by
  intro ast result key first rest htr hcon
  rw [transformAstToParseResult] at htr
  cases hrun : processTopLevels { predicatesMap := [], diagnostics := [] }
      ast.predicates with
  | error e =>
    rw [hrun] at htr
    simp at htr
  | ok st =>
    rw [hrun] at htr
    injection htr with htr
    have hmc := processTopLevels_mergeClauses ast.predicates _ st hrun key
    rw [hcon] at hmc
    cases hfro : first.fullRange with
    | none =>
      simp only [mapGet, mergeClauses, mergeClause, hfro] at hmc
      exact Except.noConfusion hmc
    | some fr =>
      simp only [mapGet, mergeClauses, mergeClause, hfro] at hmc
      rw [mergeClauses_some_ok] at hmc
      injection hmc with hmc
      have hget : mapGet st.predicatesMap key =
          some (mergedRecord (newRecord first fr) rest) := hmc.symm
      have hwk : mapWellKeyed st.predicatesMap :=
        processTopLevels_wellKeyed ast.predicates _ st hrun
          ⟨fun e he => absurd he (List.not_mem_nil e), List.nodup_nil⟩
      refine ⟨fr, mergedRecord (newRecord first fr) rest, rfl, ?_, ?_,
        rfl, rfl, rfl, rfl, rfl, rfl, rfl, rfl⟩
      · rw [← htr]
        exact List.mem_map_of_mem _ (mapGet_some_mem _ _ _ hget)
      · rw [← htr]
        exact values_countP_one st.predicatesMap key _ hwk hget

/-- Claim C2 counterexample: merging the two clauses of `mergeCexAst`
yields a record whose `fullRange` ends on line 3 — the second clause's
start line — although the second clause's own full range ends on line 5,
so the merged `fullRange` is not the max of the merged clauses' ends and
does not cover the second clause. -/
theorem transform_fullRange_not_covering :
    transformAstToParseResult mergeCexAst = .ok mergeCexResult ∧
    mergeCexResult.predicates = [mergeCexRecord] ∧
    mergeCexRecord.fullRange.endLine = 3 ∧
    (getSourceRangeFromAstRange { start := { line := 3, column := 1 }
                                  «end» := { line := 5, column := 11 } }).endLine = 5 ∧
    ¬ ((getSourceRangeFromAstRange { start := { line := 3, column := 1 }
                                     «end» := { line := 5, column := 11 } }).endLine ≤
        mergeCexRecord.fullRange.endLine) :=
  ⟨by rfl, rfl, rfl, rfl, by decide⟩

/-- Claim C2 witness: the merge law applied to the two clauses of
`mergeCexAst` under key `"p/1"`. -/
theorem transform_merge_law_witness :
    ∃ fr record,
      mergeClauseOneData.fullRange = some fr ∧
      record ∈ mergeCexResult.predicates ∧
      mergeCexResult.predicates.countP
        (fun p => predicateKey p.name p.arity == "p/1") = 1 ∧
      record.name = mergeClauseOneData.name ∧
      record.arity = mergeClauseOneData.arity ∧
      record.definitionRange = mergeClauseOneData.definitionRange ∧
      record.calls = mergeClauseOneData.calls ++
        ([mergeClauseTwoData].map (fun c => c.calls)).flatten ∧
      record.fullRange.startCharacter =
        (getSourceRangeFromAstRange fr).startCharacter ∧
      record.fullRange.endCharacter =
        (getSourceRangeFromAstRange fr).endCharacter ∧
      record.fullRange.startLine = [mergeClauseTwoData].foldl
        (fun a c => min a (jsOr c.line c.definitionRange.startLine))
        (getSourceRangeFromAstRange fr).startLine ∧
      record.fullRange.endLine = [mergeClauseTwoData].foldl
        (fun a c => max a (jsOr c.line c.definitionRange.endLine))
        (getSourceRangeFromAstRange fr).endLine :=
  transform_merge_law mergeCexAst mergeCexResult "p/1"
    mergeClauseOneData [mergeClauseTwoData] (by rfl) (by rfl)

end Prolog
